import Mathlib

/-
Verification of the vacation holiday-collection pipeline.

Shallow embedding of the repository code:
  src/utils/matching.py      (CountryMatcher, MatchResult)
  src/holidays_api/nager.py  (NagerHolidayClient)
  src/main.py                (aggregate_to_csv, enrichment step of main)
  src/azure/export_table.py  (export_csv_to_table)
  src/utils/static_data.py   (FALLBACK_COUNTRIES)

Python strings are modelled as lists of characters, Python floats as exact
rationals, Python dictionaries with optional keys as structures of Option
fields (a missing key is none).  The standard-library difflib similarity
machinery used by the matcher is embedded below from its documented
algorithm; autojunk has no effect for sequences shorter than 200 elements,
which covers every use in this program, so it is omitted.
-/

set_option maxRecDepth 10000
set_option synthInstance.maxHeartbeats 400000
set_option maxHeartbeats 1600000

namespace Vacation

/-- Python strings, modelled as lists of characters (code points). -/
abbrev Str := List Char

/-- Python str.lower, per character (the program only lowercases ASCII names). -/
def lower (s : Str) : Str := s.map Char.toLower

/-- Python string comparison: lexicographic on code points.  Used to model the
tuple comparison performed by heapq.nlargest inside difflib.get_close_matches
and the key comparison of the built-in sorted. -/
def strLt : Str → Str → Bool
  | [], [] => false
  | [], _ :: _ => true
  | _ :: _, [] => false
  | a :: as, b :: bs =>
    if a.toNat < b.toNat then true
    else if b.toNat < a.toNat then false
    else strLt as bs

theorem strLt_irrefl (a : Str) : strLt a a = false := by
  induction a with
  | nil => rfl
  | cons c cs ih => simp [strLt, ih]

theorem char_toNat_inj {a b : Char} (h : a.toNat = b.toNat) : a = b := by
  apply Char.ext
  have : a.val.toNat = b.val.toNat := h
  exact UInt32.toNat.inj this

theorem strLt_cons_lt {x y : Char} {xs ys : Str} (h : x.toNat < y.toNat) :
    strLt (x :: xs) (y :: ys) = true := by
  simp [strLt, h]

theorem strLt_cons_gt {x y : Char} {xs ys : Str} (h : y.toNat < x.toNat) :
    strLt (x :: xs) (y :: ys) = false := by
  have hxy : ¬ x.toNat < y.toNat := by omega
  simp [strLt, hxy, h]

theorem strLt_cons_eq {x y : Char} {xs ys : Str} (h : x.toNat = y.toNat) :
    strLt (x :: xs) (y :: ys) = strLt xs ys := by
  have h1 : ¬ x.toNat < y.toNat := by omega
  have h2 : ¬ y.toNat < x.toNat := by omega
  simp [strLt, h1, h2]

theorem strLt_trans {a b c : Str} (hab : strLt a b = true) (hbc : strLt b c = true) :
    strLt a c = true := by
  induction a generalizing b c with
  | nil =>
    cases c with
    | nil =>
      cases b with
      | nil => exact hab
      | cons y ys => simp [strLt] at hbc
    | cons z zs => rfl
  | cons x xs ih =>
    cases b with
    | nil => simp [strLt] at hab
    | cons y ys =>
      cases c with
      | nil => simp [strLt] at hbc
      | cons z zs =>
        rcases Nat.lt_trichotomy x.toNat y.toNat with hxy | hxy | hxy
        · rcases Nat.lt_trichotomy y.toNat z.toNat with hyz | hyz | hyz
          · exact strLt_cons_lt (Nat.lt_trans hxy hyz)
          · exact strLt_cons_lt (hyz ▸ hxy)
          · rw [strLt_cons_gt hyz] at hbc
            exact absurd hbc Bool.false_ne_true
        · rw [strLt_cons_eq hxy] at hab
          rcases Nat.lt_trichotomy y.toNat z.toNat with hyz | hyz | hyz
          · exact strLt_cons_lt (hxy ▸ hyz)
          · rw [strLt_cons_eq hyz] at hbc
            rw [strLt_cons_eq (hxy.trans hyz)]
            exact ih hab hbc
          · rw [strLt_cons_gt hyz] at hbc
            exact absurd hbc Bool.false_ne_true
        · rw [strLt_cons_gt hxy] at hab
          exact absurd hab Bool.false_ne_true

theorem strLt_conn {a b : Str} (hab : strLt a b = false) (hba : strLt b a = false) : a = b := by
  induction a generalizing b with
  | nil =>
    cases b with
    | nil => rfl
    | cons y ys => simp [strLt] at hab
  | cons x xs ih =>
    cases b with
    | nil => simp [strLt] at hba
    | cons y ys =>
      rcases Nat.lt_trichotomy x.toNat y.toNat with hxy | hxy | hxy
      · rw [strLt_cons_lt hxy] at hab
        exact absurd hab.symm Bool.false_ne_true
      · rw [strLt_cons_eq hxy] at hab
        rw [strLt_cons_eq hxy.symm] at hba
        rw [char_toNat_inj hxy, ih hab hba]
      · rw [strLt_cons_lt hxy] at hba
        exact absurd hba.symm Bool.false_ne_true

theorem strLt_asymm {a b : Str} (h : strLt a b = true) : strLt b a = false := by
  by_contra hba
  have hba' : strLt b a = true := by
    cases hb : strLt b a with
    | false => exact absurd hb hba
    | true => rfl
  have := strLt_trans h hba'
  rw [strLt_irrefl] at this
  exact Bool.false_ne_true this

/-! ### difflib.SequenceMatcher, embedded

find_longest_match over slices is characterised by: the longest common
contiguous block, ties broken by the earliest start position in the first
sequence, then in the second (which is exactly the scan order of the
dynamic program in difflib, recorded through its strict k greater than
bestsize update).  ratio is 2 * M / (len a + len b) where M is the total
size of the matching blocks of the recursive decomposition. -/

/-- Length of the longest common prefix of two strings. -/
def cpl : Str → Str → Nat
  | a :: as, b :: bs => if a = b then cpl as bs + 1 else 0
  | _, _ => 0

theorem cpl_le_left : ∀ a b : Str, cpl a b ≤ a.length := by
  intro a
  induction a with
  | nil => intro b; cases b <;> simp [cpl]
  | cons x xs ih =>
    intro b
    cases b with
    | nil => simp [cpl]
    | cons y ys =>
      simp only [cpl, List.length_cons]
      by_cases h : x = y
      · simp [h]; exact ih ys
      · simp [h]

theorem cpl_le_right : ∀ a b : Str, cpl a b ≤ b.length := by
  intro a
  induction a with
  | nil => intro b; cases b <;> simp [cpl]
  | cons x xs ih =>
    intro b
    cases b with
    | nil => simp [cpl]
    | cons y ys =>
      simp only [cpl, List.length_cons]
      by_cases h : x = y
      · simp [h]; exact ih ys
      · simp [h]

/-- All index pairs (i, j) with i < la and j < lb, in lexicographic scan order. -/
def idxPairs (la lb : Nat) : List (Nat × Nat) :=
  (List.range la).flatMap fun i => (List.range lb).map fun j => (i, j)

theorem mem_idxPairs {la lb : Nat} {p : Nat × Nat} :
    p ∈ idxPairs la lb ↔ p.1 < la ∧ p.2 < lb := by
  cases p with
  | mk i j =>
    simp only [idxPairs, List.mem_flatMap, List.mem_map, List.mem_range]
    constructor
    · rintro ⟨a, ha, b, hb, heq⟩
      cases heq
      exact ⟨ha, hb⟩
    · rintro ⟨hi, hj⟩
      exact ⟨i, hi, j, hj, rfl⟩

/-- Size of the longest common contiguous block of a and b. -/
def flmSize (a b : Str) : Nat :=
  (idxPairs a.length b.length).foldr (fun p m => max (cpl (a.drop p.1) (b.drop p.2)) m) 0

/-- difflib find_longest_match on the full strings: returns (i, j, k), the
longest block a[i:i+k] = b[j:j+k], earliest i then earliest j on ties,
and (0, 0, 0) when there is no common character. -/
def flm (a b : Str) : Nat × Nat × Nat :=
  let K := flmSize a b
  if K = 0 then (0, 0, 0)
  else
    match (idxPairs a.length b.length).find? (fun p => cpl (a.drop p.1) (b.drop p.2) == K) with
    | some p => (p.1, p.2, K)
    | none => (0, 0, 0)

theorem flm_spec {a b : Str} {i j k : Nat} (h : flm a b = (i, j, k)) (hk : k ≠ 0) :
    i < a.length ∧ j < b.length ∧ cpl (a.drop i) (b.drop j) = k := by
  unfold flm at h
  by_cases hK : flmSize a b = 0
  · rw [if_pos hK] at h
    simp only [Prod.mk.injEq] at h
    exact absurd h.2.2.symm hk
  · rw [if_neg hK] at h
    cases hfind : (idxPairs a.length b.length).find?
        (fun p => cpl (a.drop p.1) (b.drop p.2) == flmSize a b) with
    | none =>
      rw [hfind] at h
      simp only [Prod.mk.injEq] at h
      exact absurd h.2.2.symm hk
    | some p =>
      rw [hfind] at h
      simp only [Prod.mk.injEq] at h
      obtain ⟨hi, hj, hkk⟩ := h
      have hmem := List.mem_of_find?_eq_some hfind
      have hpred := List.find?_some hfind
      rw [mem_idxPairs] at hmem
      have hcpl : cpl (a.drop p.1) (b.drop p.2) = flmSize a b := eq_of_beq hpred
      subst hi; subst hj; subst hkk
      exact ⟨hmem.1, hmem.2, hcpl⟩

/-- Total number of matched characters of the recursive matching-blocks
decomposition, with explicit fuel (a.length is always enough, since every
recursive call strictly shortens the first slice). -/
def mtotalF : Nat → Str → Str → Nat
  | 0, _, _ => 0
  | fuel + 1, a, b =>
    let t := flm a b
    if t.2.2 = 0 then 0
    else
      mtotalF fuel (a.take t.1) (b.take t.2.1) + t.2.2 +
        mtotalF fuel (a.drop (t.1 + t.2.2)) (b.drop (t.2.1 + t.2.2))

def mtotal (a b : Str) : Nat := mtotalF a.length a b

theorem mtotalF_le :
    ∀ (fuel : Nat) (a b : Str), a.length ≤ fuel →
      mtotalF fuel a b ≤ a.length ∧ mtotalF fuel a b ≤ b.length := by
  intro fuel
  induction fuel with
  | zero => intro a b _; simp [mtotalF]
  | succ n ih =>
    intro a b hlen
    simp only [mtotalF]
    cases hf : flm a b with
    | mk i jk =>
      cases jk with
      | mk j k =>
        simp only
        by_cases hk : k = 0
        · simp [hf, hk]
        · obtain ⟨hi, hj, hcpl⟩ := flm_spec hf hk
          have hik : i + k ≤ a.length := by
            have := cpl_le_left (a.drop i) (b.drop j)
            rw [hcpl, List.length_drop] at this
            omega
          have hjk : j + k ≤ b.length := by
            have := cpl_le_right (a.drop i) (b.drop j)
            rw [hcpl, List.length_drop] at this
            omega
          have h1 := ih (a.take i) (b.take j) (by simp [List.length_take]; omega)
          have h2 := ih (a.drop (i + k)) (b.drop (j + k)) (by simp [List.length_drop]; omega)
          simp [hf, hk]
          constructor
          · have la1 : (a.take i).length = i := by simp [List.length_take]; omega
            have la2 : (a.drop (i + k)).length = a.length - (i + k) := by simp
            rw [la1] at h1
            rw [la2] at h2
            omega
          · have lb1 : (b.take j).length = j := by simp [List.length_take]; omega
            have lb2 : (b.drop (j + k)).length = b.length - (j + k) := by simp
            rw [lb1] at h1
            rw [lb2] at h2
            omega

theorem mtotal_le_left (a b : Str) : mtotal a b ≤ a.length :=
  (mtotalF_le a.length a b le_rfl).1

theorem mtotal_le_right (a b : Str) : mtotal a b ≤ b.length :=
  (mtotalF_le a.length a b le_rfl).2

/-- difflib SequenceMatcher ratio of sequences a and b (a is seq1, b is seq2):
2 M / (len a + len b), and 1.0 for two empty sequences.  Python computes this
as a float; it is embedded as an exact unreduced fraction (numerator,
denominator), which agrees with the float on every comparison the program
performs at these sequence lengths.  The rational value of the fraction is
given by qVal below. -/
def ratio (a b : Str) : Nat × Nat :=
  if a.length + b.length = 0 then (1, 1)
  else (2 * mtotal a b, a.length + b.length)

/-- The rational value of a (numerator, denominator) fraction. -/
def qVal (p : Nat × Nat) : ℚ := (p.1 : ℚ) / (p.2 : ℚ)

/-- Comparison of two fractions by value (cross multiplication); models the
float comparison of two similarity scores. -/
def rLt (p q : Nat × Nat) : Bool := decide (p.1 * q.2 < q.1 * p.2)

/-- Value equality of two fractions (cross multiplication). -/
def rEqv (p q : Nat × Nat) : Bool := decide (p.1 * q.2 = q.1 * p.2)

/-- The acceptance test ratio at least 0.75 of difflib.get_close_matches,
as exact arithmetic: n / d at least 3 / 4 iff 3 d at most 4 n. -/
def cutoffOK (p : Nat × Nat) : Bool := decide (3 * p.2 ≤ 4 * p.1)

theorem ratio_den_pos (a b : Str) : 0 < (ratio a b).2 := by
  unfold ratio
  by_cases h : a.length + b.length = 0
  · simp [h]
  · simp only [h, if_false]
    exact Nat.pos_of_ne_zero h

theorem rLt_iff {p q : Nat × Nat} (hp : 0 < p.2) (hq : 0 < q.2) :
    rLt p q = true ↔ qVal p < qVal q := by
  unfold rLt qVal
  rw [decide_eq_true_iff]
  rw [div_lt_div_iff₀ (by exact_mod_cast hp) (by exact_mod_cast hq)]
  constructor
  · intro h; exact_mod_cast h
  · intro h; exact_mod_cast h

theorem rEqv_iff {p q : Nat × Nat} (hp : 0 < p.2) (hq : 0 < q.2) :
    rEqv p q = true ↔ qVal p = qVal q := by
  unfold rEqv qVal
  rw [decide_eq_true_iff]
  rw [div_eq_div_iff (Nat.cast_ne_zero.mpr (Nat.pos_iff_ne_zero.mp hp))
    (Nat.cast_ne_zero.mpr (Nat.pos_iff_ne_zero.mp hq))]
  constructor
  · intro h; exact_mod_cast h
  · intro h; exact_mod_cast h

theorem cutoffOK_iff {p : Nat × Nat} (hp : 0 < p.2) :
    cutoffOK p = true ↔ (3 : ℚ) / 4 ≤ qVal p := by
  unfold cutoffOK qVal
  rw [decide_eq_true_iff]
  rw [div_le_div_iff₀ (by norm_num) (by exact_mod_cast hp)]
  constructor
  · intro h
    have : 3 * p.2 ≤ p.1 * 4 := by omega
    exact_mod_cast this
  · intro h
    have : 3 * p.2 ≤ p.1 * 4 := by exact_mod_cast h
    omega

theorem ratio_nonneg (a b : Str) : 0 ≤ qVal (ratio a b) := by
  unfold qVal
  apply div_nonneg
  · exact_mod_cast Nat.zero_le _
  · exact_mod_cast Nat.zero_le _

theorem ratio_le_one (a b : Str) : qVal (ratio a b) ≤ 1 := by
  unfold ratio
  by_cases h : a.length + b.length = 0
  · simp [h, qVal]
  · simp only [h, if_false]
    unfold qVal
    have hpos : (0 : ℚ) < ((a.length + b.length : Nat) : ℚ) := by
      have : 0 < a.length + b.length := Nat.pos_of_ne_zero h
      exact_mod_cast this
    simp only
    rw [div_le_one (by exact_mod_cast hpos)]
    have h1 := mtotal_le_left a b
    have h2 := mtotal_le_right a b
    have : 2 * mtotal a b ≤ a.length + b.length := by omega
    exact_mod_cast this


/-! ### src/utils/matching.py: CountryMatcher and MatchResult

A catalog entry is a JSON object; the keys the matcher reads are name,
country, countryCode and code, each possibly absent (absent is none).
entryCode embeds the Python expression
  c.get countryCode or c.get code
including the falsiness of the empty string under Python or. -/

structure CEntry where
  name : Option Str
  country : Option Str
  countryCode : Option Str
  code : Option Str
deriving DecidableEq

/-- Python c.get with default empty string: c.get of the name key. -/
def getName (e : CEntry) : Str := e.name.getD []

/-- The code the matcher reports for an entry. -/
def entryCode (e : CEntry) : Option Str :=
  match e.countryCode with
  | some s => if s = [] then e.code else some s
  | none => e.code

/-- String constants used by the matcher (method tags). -/
def sExact : Str := "exact".toList

def sFuzzy : Str := "fuzzy".toList

def sNone : Str := "none".toList

/-- Marker for the unreachable StopIteration path of the fuzzy branch; the
Python generator next is proved to always find an entry (see
match_one_fuzzy_spec), so this value is never produced. -/
def sStopIter : Str := "stopiteration".toList

/-- The dataclass MatchResult; score is an exact fraction (see ratio). -/
structure MatchResult where
  source_name : Str
  code : Option Str
  matched : Bool
  score : Nat × Nat
  method : Str
  target_name : Option Str
deriving DecidableEq

/-- Comparison of (score, name) tuples as performed by heapq.nlargest inside
difflib.get_close_matches: Python compares the float scores first and the
strings lexicographically on a tie. -/
def tupLt (p q : (Nat × Nat) × Str) : Bool :=
  rLt p.1 q.1 || (rEqv p.1 q.1 && strLt p.2 q.2)

/-- Python max over a nonempty list: the first element strictly greater than
the current best replaces it (ties keep the earlier element). -/
def pyMax : List ((Nat × Nat) × Str) → Option ((Nat × Nat) × Str)
  | [] => none
  | x :: xs => some (xs.foldl (fun m p => if tupLt m p then p else m) x)

/-- difflib.get_close_matches word possibilities with n = 1 and cutoff 0.75.
The two quick-ratio pre-tests of difflib are documented upper bounds of
ratio, so the triple conjunction of the source filters exactly on
ratio at least the cutoff; the nlargest(1) call is Python max over the
(score, candidate) tuples. -/
def get_close_matches (word : Str) (possibilities : List Str) : Option Str :=
  let result := (possibilities.filter fun x => cutoffOK (ratio x word)).map
    fun x => (ratio x word, x)
  (pyMax result).map Prod.snd

/-- CountryMatcher.match_one over a given catalog (the list returned by
get_available_countries).  Note the source computes the acceptance test on
the raw names (seq1 the catalog name, seq2 the source name) but the reported
score on the lowercased pair in the reversed order. -/
def match_one (countries : List CEntry) (source_name : Str) : MatchResult :=
  match countries.find? (fun c => lower (getName c) == lower source_name) with
  | some c => ⟨source_name, entryCode c, true, (1, 1), sExact, c.name⟩
  | none =>
    let target_names := countries.map getName
    match get_close_matches source_name target_names with
    | some best =>
      match countries.find? (fun c => c.name == some best) with
      | some c =>
        ⟨source_name, entryCode c, true, ratio (lower source_name) (lower best), sFuzzy,
          some best⟩
      | none => ⟨source_name, none, false, (0, 1), sStopIter, none⟩
    | none => ⟨source_name, none, false, (0, 1), sNone, none⟩

/-- CountryMatcher.match_many. -/
def match_many (countries : List CEntry) (names : List Str) : List MatchResult :=
  names.map (match_one countries)


/-! ### Specification of the fuzzy selection -/

theorem tupLt_iff {p q : (Nat × Nat) × Str} (hp : 0 < p.1.2) (hq : 0 < q.1.2) :
    tupLt p q = true ↔
      (qVal p.1 < qVal q.1 ∨ (qVal p.1 = qVal q.1 ∧ strLt p.2 q.2 = true)) := by
  unfold tupLt
  rw [Bool.or_eq_true, Bool.and_eq_true, rLt_iff hp hq, rEqv_iff hp hq]

theorem strLt_total (a b : Str) :
    strLt a b = true ∨ strLt b a = true ∨ a = b := by
  cases hab : strLt a b with
  | true => exact Or.inl rfl
  | false =>
    cases hba : strLt b a with
    | true => exact Or.inr (Or.inl rfl)
    | false => exact Or.inr (Or.inr (strLt_conn hab hba))

/-- The key step for Python max: if r is not above m and m is not above x,
then r is not above x (with respect to the nlargest tuple comparison). -/
theorem tupLt_chain {m x r : (Nat × Nat) × Str}
    (hm : 0 < m.1.2) (hx : 0 < x.1.2) (hr : 0 < r.1.2)
    (hrm : tupLt r m = false) (hmx : tupLt m x = false) : tupLt r x = false := by
  cases hrx : tupLt r x with
  | false => rfl
  | true =>
    exfalso
    rw [tupLt_iff hr hx] at hrx
    have hrm' : ¬ (qVal r.1 < qVal m.1 ∨ (qVal r.1 = qVal m.1 ∧ strLt r.2 m.2 = true)) := by
      rw [← tupLt_iff hr hm]
      simp [hrm]
    have hmx' : ¬ (qVal m.1 < qVal x.1 ∨ (qVal m.1 = qVal x.1 ∧ strLt m.2 x.2 = true)) := by
      rw [← tupLt_iff hm hx]
      simp [hmx]
    push_neg at hrm' hmx'
    have hmr : qVal m.1 ≤ qVal r.1 := hrm'.1
    have hxm : qVal x.1 ≤ qVal m.1 := hmx'.1
    rcases hrx with hlt | ⟨heq, hstr⟩
    · exact absurd (lt_of_le_of_lt hmr hlt) (not_lt.mpr hxm)
    · have hmr' : qVal m.1 = qVal r.1 := le_antisymm hmr (heq.le.trans hxm)
      have hmx2 := hmx'.2 (hmr'.trans heq)
      have hrm2 := hrm'.2 hmr'.symm
      rcases strLt_total r.2 m.2 with h1 | h1 | h1
      · exact absurd h1 hrm2
      · have := strLt_trans h1 hstr
        exact absurd this hmx2
      · rw [h1] at hstr
        exact absurd hstr hmx2

theorem pyMax_foldl_spec :
    ∀ (xs : List ((Nat × Nat) × Str)) (m0 : (Nat × Nat) × Str),
      0 < m0.1.2 → (∀ x ∈ xs, 0 < x.1.2) →
      (xs.foldl (fun m p => if tupLt m p then p else m) m0 ∈ m0 :: xs ∧
        tupLt (xs.foldl (fun m p => if tupLt m p then p else m) m0) m0 = false ∧
        ∀ p ∈ xs, tupLt (xs.foldl (fun m p => if tupLt m p then p else m) m0) p = false) := by
  intro xs
  induction xs with
  | nil =>
    intro m0 _ _
    refine ⟨List.mem_cons_self _ _, strLt_irrefl m0.2 ▸ ?_, by intro p hp; simp at hp⟩
    unfold tupLt
    simp [rLt, rEqv, strLt_irrefl]
  | cons x xs ih =>
    intro m0 hm0 hall
    have hx : 0 < x.1.2 := hall x (List.mem_cons_self _ _)
    have hxs : ∀ y ∈ xs, 0 < y.1.2 := fun y hy => hall y (List.mem_cons_of_mem _ hy)
    simp only [List.foldl_cons]
    by_cases hstep : tupLt m0 x = true
    · rw [if_pos hstep]
      obtain ⟨hmem, hnot1, hnot2⟩ := ih x hx hxs
      have hres : 0 < (xs.foldl (fun m p => if tupLt m p then p else m) x).1.2 := by
        rcases List.mem_cons.mp hmem with h | h
        · rw [h]; exact hx
        · exact hxs _ h
      refine ⟨?_, ?_, ?_⟩
      · rcases List.mem_cons.mp hmem with h | h
        · rw [h]; exact List.mem_cons_of_mem _ (List.mem_cons_self _ _)
        · exact List.mem_cons_of_mem _ (List.mem_cons_of_mem _ h)
      · cases hc : tupLt (xs.foldl (fun m p => if tupLt m p then p else m) x) m0 with
        | false => rfl
        | true =>
          exfalso
          have hxx : tupLt (xs.foldl (fun m p => if tupLt m p then p else m) x) x = true := by
            rw [tupLt_iff hres hx]
            rw [tupLt_iff hres hm0] at hc
            rw [tupLt_iff hm0 hx] at hstep
            rcases hc with hlt | ⟨heq, hstr⟩ <;> rcases hstep with hlt2 | ⟨heq2, hstr2⟩
            · exact Or.inl (hlt.trans hlt2)
            · exact Or.inl (heq2 ▸ hlt)
            · exact Or.inl (heq ▸ hlt2)
            · exact Or.inr ⟨heq.trans heq2, strLt_trans hstr hstr2⟩
          rw [hnot1] at hxx
          exact Bool.false_ne_true hxx
      · intro p hp
        rcases List.mem_cons.mp hp with h | h
        · rw [h]; exact hnot1
        · exact hnot2 p h
    · have hstep' : tupLt m0 x = false := by
        cases h : tupLt m0 x with
        | false => rfl
        | true => exact absurd h hstep
      rw [if_neg (by simp [hstep'])]
      obtain ⟨hmem, hnot1, hnot2⟩ := ih m0 hm0 hxs
      have hres : 0 < (xs.foldl (fun m p => if tupLt m p then p else m) m0).1.2 := by
        rcases List.mem_cons.mp hmem with h | h
        · rw [h]; exact hm0
        · exact hxs _ h
      refine ⟨?_, hnot1, ?_⟩
      · rcases List.mem_cons.mp hmem with h | h
        · rw [h]; exact List.mem_cons_self _ _
        · exact List.mem_cons_of_mem _ (List.mem_cons_of_mem _ h)
      · intro p hp
        rcases List.mem_cons.mp hp with h | h
        · rw [h]
          exact tupLt_chain hm0 hx hres hnot1 hstep'
        · exact hnot2 p h

theorem pyMax_spec {l : List ((Nat × Nat) × Str)} (hne : l ≠ [])
    (hd : ∀ x ∈ l, 0 < x.1.2) :
    ∃ m, pyMax l = some m ∧ m ∈ l ∧ ∀ p ∈ l, tupLt m p = false := by
  cases l with
  | nil => exact absurd rfl hne
  | cons x xs =>
    have hx : 0 < x.1.2 := hd x (List.mem_cons_self _ _)
    have hxs : ∀ y ∈ xs, 0 < y.1.2 := fun y hy => hd y (List.mem_cons_of_mem _ hy)
    obtain ⟨hmem, hnot1, hnot2⟩ := pyMax_foldl_spec xs x hx hxs
    refine ⟨_, rfl, hmem, ?_⟩
    intro p hp
    rcases List.mem_cons.mp hp with h | h
    · rw [h]; exact hnot1
    · exact hnot2 p h

theorem mtotal_nil_left (b : Str) : mtotal [] b = 0 := rfl

theorem cutoffOK_nil_left {src : Str} (h : src ≠ []) :
    cutoffOK (ratio [] src) = false := by
  have hlen : src.length ≠ 0 := fun hz => h (List.length_eq_zero.mp hz)
  unfold ratio
  rw [if_neg (by simpa using hlen)]
  unfold cutoffOK
  rw [mtotal_nil_left]
  simp only [Nat.mul_zero, decide_eq_false_iff_not, not_le]
  omega

/-- First catalog entry whose name matches src case-insensitively, as a Bool
predicate (the loop of the exact branch). -/
theorem find?_exact_eq_none {countries : List CEntry} {src : Str}
    (hnoex : ∀ c ∈ countries, lower (getName c) ≠ lower src) :
    countries.find? (fun c => lower (getName c) == lower src) = none := by
  rw [List.find?_eq_none]
  intro c hc
  simp only [beq_iff_eq]
  exact hnoex c hc

/-- Claim C2: for every source name equal case-insensitively to some catalog
entry name, match_one returns matched true, method exact, score 1.0, and the
code and catalog name of that (first matching) entry. -/
theorem match_one_exact_spec (countries : List CEntry) (src : Str)
    (h : ∃ c ∈ countries, lower (getName c) = lower src) :
    (match_one countries src).matched = true ∧
    (match_one countries src).method = sExact ∧
    qVal (match_one countries src).score = 1 ∧
    ∃ c ∈ countries, lower (getName c) = lower src ∧
      (match_one countries src).code = entryCode c ∧
      (match_one countries src).target_name = c.name := by
  cases hf : countries.find? (fun c => lower (getName c) == lower src) with
  | none =>
    exfalso
    rw [List.find?_eq_none] at hf
    obtain ⟨c, hc, hcl⟩ := h
    exact (hf c hc) (by simp [hcl])
  | some c =>
    have hmem := List.mem_of_find?_eq_some hf
    have hpred : lower (getName c) = lower src := by
      have := List.find?_some hf
      simpa using this
    simp only [match_one, hf]
    exact ⟨by trivial, by trivial, by norm_num [qVal], c, hmem, hpred, by trivial, by trivial⟩

def wUS : CEntry := ⟨some ("United States".toList), none, some ("US".toList), none⟩

def wSrcUS : Str := "UNITED states".toList

def usCode : Str := "US".toList

def usName : Str := "United States".toList

theorem match_one_exact_witness :
    (∃ c ∈ [wUS], lower (getName c) = lower wSrcUS) ∧
    (match_one [wUS] wSrcUS).matched = true ∧
    (match_one [wUS] wSrcUS).method = sExact ∧
    qVal (match_one [wUS] wSrcUS).score = 1 ∧
    (match_one [wUS] wSrcUS).code = some usCode ∧
    (match_one [wUS] wSrcUS).target_name = some usName :=
  ⟨by decide, (match_one_exact_spec [wUS] wSrcUS (by decide)).1,
    (match_one_exact_spec [wUS] wSrcUS (by decide)).2.1,
    (match_one_exact_spec [wUS] wSrcUS (by decide)).2.2.1,
    by decide, by decide⟩

/-- Claim C6 counterexample: a catalog entry that the matcher can hold (the
catalog endpoint returns arbitrary JSON objects) with a name but no
countryCode and no code key yields matched true with a null code, refuting
the invariant matched iff code set. -/
def frEntry : CEntry := ⟨some ("France".toList), none, none, none⟩

def frSrc : Str := "france".toList

theorem match_result_invariants_counterexample :
    (match_one [frEntry] frSrc).matched = true ∧
    (match_one [frEntry] frSrc).code = none ∧
    ¬ ((match_one [frEntry] frSrc).matched = true ↔
        (match_one [frEntry] frSrc).code ≠ none) := by
  decide

/-- Claim C6 (amended): over catalogs in which every entry carries a code
(a nonempty countryCode or a code key, so entryCode is not none), every
MatchResult of match_one satisfies: matched iff code is set; method exact
implies score 1.0; method none implies null code and score 0.0.  Without
the code hypothesis the first invariant fails (see the counterexample). -/
theorem match_result_invariants (countries : List CEntry) (src : Str)
    (hcode : ∀ c ∈ countries, entryCode c ≠ none) :
    ((match_one countries src).matched = true ↔ (match_one countries src).code ≠ none) ∧
    ((match_one countries src).method = sExact → qVal (match_one countries src).score = 1) ∧
    ((match_one countries src).method = sNone →
      (match_one countries src).code = none ∧ qVal (match_one countries src).score = 0) := by
  cases hf : countries.find? (fun c => lower (getName c) == lower src) with
  | some c =>
    have hmem := List.mem_of_find?_eq_some hf
    simp only [match_one, hf]
    refine ⟨by simpa using hcode c hmem, fun _ => by norm_num [qVal], fun hm => ?_⟩
    exact absurd hm (by decide)
  | none =>
    cases hg : get_close_matches src (countries.map getName) with
    | some best =>
      cases hf2 : countries.find? (fun c => c.name == some best) with
      | some c =>
        have hmem := List.mem_of_find?_eq_some hf2
        simp only [match_one, hf, hg, hf2]
        refine ⟨by simpa using hcode c hmem, fun hm => ?_, fun hm => ?_⟩
        · exact absurd hm (by decide)
        · exact absurd hm (by decide)
      | none =>
        simp only [match_one, hf, hg, hf2]
        refine ⟨by simp, fun hm => ?_, fun hm => ?_⟩
        · exact absurd hm (by decide)
        · exact absurd hm (by decide)
    | none =>
      simp only [match_one, hf, hg]
      refine ⟨by simp, fun hm => ?_, fun _ => ⟨by trivial, by norm_num [qVal]⟩⟩
      exact absurd hm (by decide)

def nlEntry : CEntry := ⟨some ("Netherlands".toList), none, some ("NL".toList), none⟩

def nlSrc : Str := "netherlands".toList

theorem match_result_invariants_witness :
    (∀ c ∈ [nlEntry], entryCode c ≠ none) ∧
    (((match_one [nlEntry] nlSrc).matched = true ↔ (match_one [nlEntry] nlSrc).code ≠ none) ∧
    ((match_one [nlEntry] nlSrc).method = sExact → qVal (match_one [nlEntry] nlSrc).score = 1) ∧
    ((match_one [nlEntry] nlSrc).method = sNone →
      (match_one [nlEntry] nlSrc).code = none ∧ qVal (match_one [nlEntry] nlSrc).score = 0)) :=
  ⟨by decide, match_result_invariants [nlEntry] nlSrc (by decide)⟩

def tieNameA : Str := "abcd".toList

def tieNameB : Str := "abce".toList

def tieSrc : Str := "abcx".toList

def tieCodeA : Str := "A".toList

def tieCodeB : Str := "B".toList

def tieA : CEntry := ⟨some tieNameA, none, some tieCodeA, none⟩

def tieB : CEntry := ⟨some tieNameB, none, some tieCodeB, none⟩

/-- Claim C1 counterexample: both catalog names reach the same maximal
acceptance ratio (3/4) for the source, there is no exact match, yet
match_one selects the SECOND catalog entry, not the first one in loaded
catalog order: heapq.nlargest breaks the tie by the lexicographically
greater candidate string, not by catalog position. -/
theorem match_one_fuzzy_counterexample :
    ratio tieNameA tieSrc = ratio tieNameB tieSrc ∧
    cutoffOK (ratio tieNameA tieSrc) = true ∧
    (∀ c ∈ [tieA, tieB], lower (getName c) ≠ lower tieSrc) ∧
    (match_one [tieA, tieB] tieSrc).method = sFuzzy ∧
    (match_one [tieA, tieB] tieSrc).target_name = some tieNameB ∧
    (match_one [tieA, tieB] tieSrc).code = some tieCodeB ∧
    (match_one [tieA, tieB] tieSrc).target_name ≠ some tieNameA := by
  decide

/-- Claim C1 (amended): with no case-insensitive exact match, if some catalog
name reaches acceptance ratio at least 0.75 against the source name then
match_one returns a fuzzy MatchResult whose candidate best has maximal ratio
among all catalog names, where a tie in the maximal ratio is broken towards
the lexicographically greatest candidate name (not the first catalog entry),
and among entries bearing that same name the first catalog entry supplies
code and target name; the reported score is the ratio recomputed on the
lowercased pair.  If no catalog name reaches 0.75, match_one returns the
unmatched result with score 0.0, method none and null code. -/
theorem match_one_fuzzy_spec (countries : List CEntry) (src : Str)
    (hnoex : ∀ c ∈ countries, lower (getName c) ≠ lower src) :
    ((∃ x ∈ countries.map getName, (3 : ℚ) / 4 ≤ qVal (ratio x src)) →
      ∃ best c,
        countries.find? (fun e => e.name == some best) = some c ∧
        match_one countries src =
          ⟨src, entryCode c, true, ratio (lower src) (lower best), sFuzzy, some best⟩ ∧
        best ∈ countries.map getName ∧
        (3 : ℚ) / 4 ≤ qVal (ratio best src) ∧
        ∀ x ∈ countries.map getName,
          qVal (ratio x src) ≤ qVal (ratio best src) ∧
          (qVal (ratio x src) = qVal (ratio best src) → strLt best x = false)) ∧
    ((∀ x ∈ countries.map getName, qVal (ratio x src) < (3 : ℚ) / 4) →
      match_one countries src = ⟨src, none, false, (0, 1), sNone, none⟩) := by
  have hf := find?_exact_eq_none hnoex
  constructor
  · rintro ⟨x0, hx0, hx0c⟩
    have hx0cand : x0 ∈ (countries.map getName).filter (fun x => cutoffOK (ratio x src)) :=
      List.mem_filter.mpr ⟨hx0, (cutoffOK_iff (ratio_den_pos x0 src)).mpr hx0c⟩
    have hne :
        ((countries.map getName).filter (fun x => cutoffOK (ratio x src))).map
          (fun x => (ratio x src, x)) ≠ [] := by
      intro hnil
      rw [List.map_eq_nil_iff] at hnil
      rw [hnil] at hx0cand
      exact List.not_mem_nil x0 hx0cand
    have hd : ∀ p ∈ ((countries.map getName).filter (fun x => cutoffOK (ratio x src))).map
        (fun x => (ratio x src, x)), 0 < p.1.2 := by
      intro p hp
      rw [List.mem_map] at hp
      obtain ⟨x, _, hpx⟩ := hp
      rw [← hpx]
      exact ratio_den_pos x src
    obtain ⟨m, hpm, hmem, hmax⟩ := pyMax_spec hne hd
    rw [List.mem_map] at hmem
    obtain ⟨best, hbestc, hbm⟩ := hmem
    have hm1 : m.1 = ratio best src := by rw [← hbm]
    have hm2 : m.2 = best := by rw [← hbm]
    have hbest_names : best ∈ countries.map getName := (List.mem_filter.mp hbestc).1
    have hbest_cut : cutoffOK (ratio best src) = true := (List.mem_filter.mp hbestc).2
    have hbest_q : (3 : ℚ) / 4 ≤ qVal (ratio best src) :=
      (cutoffOK_iff (ratio_den_pos best src)).mp hbest_cut
    have hg : get_close_matches src (countries.map getName) = some best := by
      simp only [get_close_matches]
      rw [hpm, ← hm2]
      rfl
    have hex2 : ∃ c, c ∈ countries ∧ c.name = some best := by
      obtain ⟨c0, hc0, hc0n⟩ := List.mem_map.mp hbest_names
      cases hcn : c0.name with
      | some s =>
        refine ⟨c0, hc0, ?_⟩
        rw [hcn]
        have : getName c0 = s := by rw [getName, hcn]; rfl
        rw [← hc0n, this]
      | none =>
        exfalso
        have hb0 : best = [] := by
          rw [← hc0n, getName, hcn]
          rfl
        by_cases hsrc : src = []
        · apply hnoex c0 hc0
          rw [getName, hcn, hsrc]
          rfl
        · have := cutoffOK_nil_left hsrc
          rw [← hb0] at this
          rw [this] at hbest_cut
          exact Bool.false_ne_true hbest_cut
    obtain ⟨c, hcfind⟩ : ∃ c, countries.find? (fun e => e.name == some best) = some c := by
      cases hff : countries.find? (fun e => e.name == some best) with
      | some c => exact ⟨c, rfl⟩
      | none =>
        exfalso
        rw [List.find?_eq_none] at hff
        obtain ⟨c0, hc0, hc0n⟩ := hex2
        exact hff c0 hc0 (by simp [hc0n])
    refine ⟨best, c, hcfind, ?_, hbest_names, hbest_q, ?_⟩
    · simp only [match_one, hf, hg, hcfind]
    · intro x hx
      by_cases hxc : cutoffOK (ratio x src) = true
      · have hxcand : x ∈ (countries.map getName).filter (fun y => cutoffOK (ratio y src)) :=
          List.mem_filter.mpr ⟨hx, hxc⟩
        have hpl : (ratio x src, x) ∈ ((countries.map getName).filter
            (fun y => cutoffOK (ratio y src))).map (fun y => (ratio y src, y)) :=
          List.mem_map_of_mem _ hxcand
        have htup := hmax _ hpl
        have hdm : 0 < m.1.2 := by rw [hm1]; exact ratio_den_pos best src
        have hdx : 0 < (ratio x src, x).1.2 := ratio_den_pos x src
        have hnot : ¬ (qVal m.1 < qVal (ratio x src) ∨
            (qVal m.1 = qVal (ratio x src) ∧ strLt m.2 x = true)) := by
          rw [← tupLt_iff hdm hdx]
          simp [htup]
        push_neg at hnot
        constructor
        · rw [← hm1]
          exact hnot.1
        · intro heq
          have h2 := hnot.2 (by rw [hm1, heq])
          rw [← hm2]
          cases hb : strLt m.2 x with
          | false => rfl
          | true => exact absurd hb h2
      · have hxlt : qVal (ratio x src) < (3 : ℚ) / 4 := by
          rcases lt_or_le (qVal (ratio x src)) ((3 : ℚ) / 4) with h | h
          · exact h
          · exact absurd ((cutoffOK_iff (ratio_den_pos x src)).mpr h) hxc
        refine ⟨le_of_lt (lt_of_lt_of_le hxlt hbest_q), fun heq => ?_⟩
        exfalso
        rw [heq] at hxlt
        exact absurd hbest_q (not_le.mpr hxlt)
  · intro hall
    have hfilter : (countries.map getName).filter (fun x => cutoffOK (ratio x src)) = [] := by
      rw [List.filter_eq_nil_iff]
      intro x hx
      simp only [Bool.not_eq_true]
      cases hc : cutoffOK (ratio x src) with
      | false => rfl
      | true =>
        exfalso
        have := (cutoffOK_iff (ratio_den_pos x src)).mp hc
        exact absurd this (not_le.mpr (hall x hx))
    simp only [match_one, hf, get_close_matches, hfilter, List.map_nil]
    rfl

def esName : Str := "spain".toList

def esCode : Str := "ES".toList

def esEntry : CEntry := ⟨some esName, none, some esCode, none⟩

def esSrc : Str := "spane".toList

theorem match_one_fuzzy_witness :
    (∀ c ∈ [esEntry], lower (getName c) ≠ lower esSrc) ∧
    (∃ best c,
      List.find? (fun e => e.name == some best) [esEntry] = some c ∧
      match_one [esEntry] esSrc =
        ⟨esSrc, entryCode c, true, ratio (lower esSrc) (lower best), sFuzzy, some best⟩ ∧
      best ∈ List.map getName [esEntry] ∧
      (3 : ℚ) / 4 ≤ qVal (ratio best esSrc) ∧
      ∀ x ∈ List.map getName [esEntry],
        qVal (ratio x esSrc) ≤ qVal (ratio best esSrc) ∧
        (qVal (ratio x esSrc) = qVal (ratio best esSrc) → strLt best x = false)) :=
  ⟨by decide, (match_one_fuzzy_spec [esEntry] esSrc (by decide)).1
    ⟨esName, by decide, (cutoffOK_iff (ratio_den_pos esName esSrc)).mp (by decide)⟩⟩

def tideS : Str := "tide".toList

def dietS : Str := "diet".toList

/-- Claim C10 counterexample: the similarity ratio of difflib.SequenceMatcher
used by the fuzzy matcher is NOT symmetric; it depends on which string is
seq1 and which is seq2. -/
theorem ratio_not_symmetric :
    qVal (ratio tideS dietS) ≠ qVal (ratio dietS tideS) ∧
    qVal (ratio tideS dietS) = 1 / 4 ∧ qVal (ratio dietS tideS) = 1 / 2 := by
  have h1 : ratio tideS dietS = (2, 8) := by decide
  have h2 : ratio dietS tideS = (4, 8) := by decide
  rw [h1, h2]
  unfold qVal
  norm_num

/-- Claim C10 (amended): the similarity ratio used by the fuzzy matcher
always lies in the interval [0, 1]; it is not symmetric in general (see the
counterexample), only the interval bound holds. -/
theorem ratio_in_unit_interval (a b : Str) :
    0 ≤ qVal (ratio a b) ∧ qVal (ratio a b) ≤ 1 :=
  ⟨ratio_nonneg a b, ratio_le_one a b⟩

/-! ### src/holidays_api/nager.py: NagerHolidayClient

The outcome of each attempted requests.get call (including status checking
and JSON decoding) is abstracted as an Except value; the list passed to
requestJson holds the outcomes of the successive attempts, its length being
the configured retry count.  The rational second component of the result
collects the time.sleep delays performed, in order. -/

/-- The JSON body of a successful holiday response: either a list of records
or something else (the not-a-list shape). -/
inductive JVal (H : Type) where
  | list (hs : List H)
  | other
deriving DecidableEq

/-- Result of _request_json: a decoded value, a propagated exception after
the final attempt, or the trailing unreachable RuntimeError raised when the
loop body never runs (retries < 1). -/
inductive ReqOut (E V : Type) where
  | ok (v : V)
  | err (e : E)
  | bug
deriving DecidableEq

/-- NagerHolidayClient._request_json: walk the attempt outcomes; a success
returns immediately, a failure on the final attempt propagates, any earlier
failure sleeps for the current delay and doubles it.  All exceptions are
treated identically (the except clause catches Exception). -/
def requestJson {E V : Type} : List (Except E V) → ℚ → ReqOut E V × List ℚ
  | [], _ => (.bug, [])
  | o :: rest, d =>
    match o with
    | .ok v => (.ok v, [])
    | .error e =>
      match rest with
      | [] => (.err e, [])
      | _ :: _ =>
        let r := requestJson rest (2 * d)
        (r.1, d :: r.2)

/-- NagerHolidayClient.get_public_holidays (online path): on success, a body
that is not a list degrades to the empty list (with a logged warning); a
list body is returned as is; errors propagate. -/
def get_public_holidays {E H : Type} (outs : List (Except E (JVal H))) :
    ReqOut E (List H) × List ℚ :=
  let r := requestJson outs 1
  match r.1 with
  | .ok (.list hs) => (.ok hs, r.2)
  | .ok .other => (.ok [], r.2)
  | .err e => (.err e, r.2)
  | .bug => (.bug, r.2)

theorem requestJson_cons_error {E V : Type} (e0 : E) (rest : List (Except E V))
    (hne : rest ≠ []) (d : ℚ) :
    requestJson (Except.error e0 :: rest) d =
      ((requestJson rest (2 * d)).1, d :: (requestJson rest (2 * d)).2) := by
  cases rest with
  | nil => exact absurd rfl hne
  | cons o rs => rfl

theorem requestJson_all_errors {E V : Type} :
    ∀ (es : List E) (e : E) (d : ℚ),
      requestJson (es.map Except.error ++ [Except.error e] : List (Except E V)) d =
        (.err e, (List.range es.length).map fun t => d * 2 ^ t) := by
  intro es
  induction es with
  | nil => intro e d; rfl
  | cons e0 es ih =>
    intro e d
    simp only [List.map_cons, List.cons_append]
    rw [requestJson_cons_error e0 _ (by simp) d, ih e (2 * d)]
    simp only [Prod.mk.injEq, true_and]
    rw [List.length_cons, List.range_succ_eq_map, List.map_cons, List.map_map]
    congr 1
    · norm_num
    · apply List.map_congr_left
      intro t _
      simp only [Function.comp_apply]
      rw [pow_succ]
      ring

theorem requestJson_first_ok {E V : Type} :
    ∀ (es : List E) (v : V) (post : List (Except E V)) (d : ℚ),
      requestJson (es.map Except.error ++ Except.ok v :: post) d =
        (.ok v, (List.range es.length).map fun t => d * 2 ^ t) := by
  intro es
  induction es with
  | nil => intro v post d; rfl
  | cons e0 es ih =>
    intro v post d
    simp only [List.map_cons, List.cons_append]
    rw [requestJson_cons_error e0 _ (by simp) d, ih v post (2 * d)]
    simp only [Prod.mk.injEq, true_and]
    rw [List.length_cons, List.range_succ_eq_map, List.map_cons, List.map_map]
    congr 1
    · norm_num
    · apply List.map_congr_left
      intro t _
      simp only [Function.comp_apply]
      rw [pow_succ]
      ring

/-- Claim C3: every exception is retried identically up to the configured
attempt count, with sleeps forming the doubling sequence 1, 2, 4, ... from
the base delay 1.0; after the final attempt the last error propagates; and a
successful response whose body is not a list gives an empty list instead of
an error.  The attempt outcomes are abstracted: the statement quantifies
over arbitrary per-attempt exceptions, which is exactly the source treating
all exceptions alike. -/
theorem nager_retry_spec {E H : Type} :
    (∀ (es : List E) (e : E),
      requestJson (es.map Except.error ++ [Except.error e] : List (Except E (JVal H))) 1 =
        (.err e, (List.range es.length).map fun t => (2 : ℚ) ^ t)) ∧
    (∀ (es : List E) (v : JVal H) (post : List (Except E (JVal H))),
      requestJson (es.map Except.error ++ Except.ok v :: post) 1 =
        (.ok v, (List.range es.length).map fun t => (2 : ℚ) ^ t)) ∧
    (∀ (outs : List (Except E (JVal H))) (ds : List ℚ),
      requestJson outs 1 = (.ok .other, ds) → get_public_holidays outs = (.ok [], ds)) := by
  refine ⟨fun es e => ?_, fun es v post => ?_, fun outs ds h => ?_⟩
  · rw [requestJson_all_errors es e 1]
    simp
  · rw [requestJson_first_ok es v post 1]
    simp
  · simp only [get_public_holidays, h]

theorem nager_retry_witness :
    requestJson ([Except.error 0, Except.error 1, Except.error 2] : List (Except Nat (JVal Unit))) 1 =
      (.err 2, (List.range 2).map fun t => (2 : ℚ) ^ t) ∧
    requestJson ([Except.error 0, Except.ok (JVal.other)] : List (Except Nat (JVal Unit))) 1 =
      (.ok .other, (List.range 1).map fun t => (2 : ℚ) ^ t) ∧
    get_public_holidays ([Except.error 0, Except.ok (JVal.other)] : List (Except Nat (JVal Unit))) =
      (.ok [], (List.range 1).map fun t => (2 : ℚ) ^ t) :=
  ⟨(nager_retry_spec (E := Nat) (H := Unit)).1 [0, 1] 2,
   (nager_retry_spec (E := Nat) (H := Unit)).2.1 [0] JVal.other [],
   (nager_retry_spec (E := Nat) (H := Unit)).2.2 _ _
     ((nager_retry_spec (E := Nat) (H := Unit)).2.1 [0] JVal.other [])⟩

/-- NagerHolidayClient.bulk_get_public_holidays: one fetch task per code; a
successful fetch records its list under the code, a raised fetch is caught,
logged and omitted.  The per-code outcome is abstracted as a function from
codes to Except; the completion order of the thread pool only permutes the
insertion order of the result dictionary, never its key-value content, so
the mapping is modelled in submission order and the claim is stated through
lookup. -/
def bulk_get_public_holidays {E H : Type} (fetch : Str → Except E (List H))
    (codes : List Str) : List (Str × List H) :=
  codes.filterMap fun c =>
    match fetch c with
    | .ok hs => some (c, hs)
    | .error _ => none

theorem bulk_mem {E H : Type} {fetch : Str → Except E (List H)} {codes : List Str}
    {p : Str × List H} (hp : p ∈ bulk_get_public_holidays fetch codes) :
    fetch p.1 = .ok p.2 := by
  rw [bulk_get_public_holidays, List.mem_filterMap] at hp
  obtain ⟨a, _, ha⟩ := hp
  cases hfa : fetch a with
  | ok hs =>
    rw [hfa] at ha
    simp only [Option.some.injEq] at ha
    rw [← ha]
    exact hfa
  | error e =>
    rw [hfa] at ha
    simp at ha

theorem lookup_eq_none_of_no_key {H : Type} (c : Str) :
    ∀ l : List (Str × List H), (∀ p ∈ l, p.1 ≠ c) → l.lookup c = none := by
  intro l
  induction l with
  | nil => intro _; rfl
  | cons p ps ih =>
    intro hall
    cases p with
    | mk k v =>
      have hk : k ≠ c := hall (k, v) (List.mem_cons_self _ _)
      simp only [List.lookup]
      rw [beq_eq_false_iff_ne.mpr (fun h => hk h.symm)]
      exact ih fun q hq => hall q (List.mem_cons_of_mem _ hq)

/-- Claim C4: the bulk mapping has no key for a code whose fetch raised, maps
each code whose fetch succeeded to exactly the fetched list, and one code
failing cannot prevent another from being fetched and recorded: the
conclusion for a code depends only on that code's own outcome, for every
fetch function and every surrounding code list. -/
theorem bulk_spec {E H : Type} (fetch : Str → Except E (List H)) (codes : List Str)
    (c : Str) (hc : c ∈ codes) :
    (∀ e, fetch c = .error e → (bulk_get_public_holidays fetch codes).lookup c = none) ∧
    (∀ hs, fetch c = .ok hs → (bulk_get_public_holidays fetch codes).lookup c = some hs) := by
  constructor
  · intro e he
    apply lookup_eq_none_of_no_key
    intro p hp hpc
    have := bulk_mem hp
    rw [hpc, he] at this
    exact Except.noConfusion this
  · intro hs hok
    induction codes with
    | nil => simp at hc
    | cons d rest ih =>
      by_cases hdc : d = c
      · subst hdc
        simp only [bulk_get_public_holidays, List.filterMap_cons, hok]
        simp [List.lookup]
      · have hcr : c ∈ rest := by
          rcases List.mem_cons.mp hc with h | h
          · exact absurd h.symm hdc
          · exact h
        cases hfd : fetch d with
        | ok hs0 =>
          simp only [bulk_get_public_holidays, List.filterMap_cons, hfd]
          simp only [List.lookup]
          rw [beq_eq_false_iff_ne.mpr (fun h => hdc h.symm)]
          exact ih hcr
        | error e0 =>
          simp only [bulk_get_public_holidays, List.filterMap_cons, hfd]
          exact ih hcr

def gbCode : Str := "GB".toList

def jpCode : Str := "JP".toList

def bulkFetchW : Str → Except Unit (List Nat) :=
  fun s => if s = gbCode then .error () else .ok [7]

theorem bulk_spec_witness :
    gbCode ∈ [gbCode, jpCode] ∧ jpCode ∈ [gbCode, jpCode] ∧
    (bulk_get_public_holidays bulkFetchW [gbCode, jpCode]).lookup gbCode = none ∧
    (bulk_get_public_holidays bulkFetchW [gbCode, jpCode]).lookup jpCode = some [7] :=
  ⟨by decide, by decide,
    (bulk_spec bulkFetchW [gbCode, jpCode] gbCode (by decide)).1 () rfl,
    (bulk_spec bulkFetchW [gbCode, jpCode] jpCode (by decide)).2 [7] rfl⟩

/-! ### src/utils/matching.py: get_available_countries, with
src/utils/static_data.py FALLBACK_COUNTRIES -/

/-- The embedded fallback catalog of src/utils/static_data.py. -/
def FALLBACK_COUNTRIES : List CEntry :=
  [⟨some ("United States".toList), none, some ("US".toList), none⟩,
   ⟨some ("Canada".toList), none, some ("CA".toList), none⟩,
   ⟨some ("United Kingdom".toList), none, some ("GB".toList), none⟩,
   ⟨some ("Germany".toList), none, some ("DE".toList), none⟩,
   ⟨some ("France".toList), none, some ("FR".toList), none⟩,
   ⟨some ("Australia".toList), none, some ("AU".toList), none⟩,
   ⟨some ("India".toList), none, some ("IN".toList), none⟩,
   ⟨some ("Brazil".toList), none, some ("BR".toList), none⟩,
   ⟨some ("Japan".toList), none, some ("JP".toList), none⟩,
   ⟨some ("South Africa".toList), none, some ("ZA".toList), none⟩]

/-- The field normalisation applied to a fetched catalog: an entry with no
name key but a country key gets its name set from country. -/
def normalizeCountries (data : List CEntry) : List CEntry :=
  data.map fun d =>
    if d.name = none ∧ d.country ≠ none then { d with name := d.country } else d

/-- The mutable state of a CountryMatcher: the offline flag and the
countries cache (None until the first call). -/
structure MatcherState where
  offline : Bool
  cache : Option (List CEntry)
deriving DecidableEq

/-- CountryMatcher.get_available_countries.  The outcome of the network fetch
(requests.get, raise_for_status and JSON decoding together) is abstracted as
an Except value; the function is total, returning the catalog and the new
matcher state: a cached catalog is returned as is, offline mode and any
fetch failure fall back to FALLBACK_COUNTRIES, a fetched catalog is
normalised; every branch fills the cache.  (The embedding assumes the HTTP
library is importable, as the installed requirements provide.) -/
def get_available_countries {E : Type} (s : MatcherState) (fetch : Except E (List CEntry)) :
    List CEntry × MatcherState :=
  match s.cache with
  | some cs => (cs, s)
  | none =>
    if s.offline then (FALLBACK_COUNTRIES, { s with cache := some FALLBACK_COUNTRIES })
    else
      match fetch with
      | .ok data =>
        (normalizeCountries data, { s with cache := some (normalizeCountries data) })
      | .error _ => (FALLBACK_COUNTRIES, { s with cache := some FALLBACK_COUNTRIES })

/-- Claim C5: get_available_countries never raises (the embedding is total
over every fetch outcome); on any online fetch failure it returns the fixed
embedded fallback catalog; the result is always cached, and a second call
returns the first result unchanged whatever its own fetch would do, so the
catalog is fetched at most once per matcher instance. -/
theorem get_available_countries_spec {E : Type} (s : MatcherState)
    (f1 f2 : Except E (List CEntry)) :
    (s.cache = none → s.offline = false → ∀ e, f1 = .error e →
      (get_available_countries s f1).1 = FALLBACK_COUNTRIES) ∧
    (s.cache = none → s.offline = false → ∀ data, f1 = .ok data →
      (get_available_countries s f1).1 = normalizeCountries data) ∧
    ((get_available_countries s f1).2.cache = some (get_available_countries s f1).1) ∧
    (get_available_countries (get_available_countries s f1).2 f2 =
      ((get_available_countries s f1).1, (get_available_countries s f1).2)) := by
  refine ⟨?_, ?_, ?_, ?_⟩
  · intro hc hoff e hf
    simp [get_available_countries, hc, hoff, hf]
  · intro hc hoff data hf
    simp [get_available_countries, hc, hoff, hf]
  · cases hc : s.cache with
    | some cs => simp [get_available_countries, hc]
    | none =>
      by_cases hoff : s.offline
      · simp [get_available_countries, hc, hoff]
      · cases hf : f1 with
        | ok data => simp [get_available_countries, hc, hoff, hf]
        | error e => simp [get_available_countries, hc, hoff, hf]
  · cases hc : s.cache with
    | some cs => simp [get_available_countries, hc]
    | none =>
      by_cases hoff : s.offline
      · simp [get_available_countries, hc, hoff]
      · cases hf : f1 with
        | ok data => simp [get_available_countries, hc, hoff, hf]
        | error e => simp [get_available_countries, hc, hoff, hf]

def freshState : MatcherState := ⟨false, none⟩

theorem get_available_countries_witness :
    freshState.cache = none ∧ freshState.offline = false ∧
    (get_available_countries freshState (.error () : Except Unit (List CEntry))).1 =
      FALLBACK_COUNTRIES ∧
    (get_available_countries freshState (.error () : Except Unit (List CEntry))).2.cache =
      some (get_available_countries freshState (.error () : Except Unit (List CEntry))).1 ∧
    (get_available_countries
        (get_available_countries freshState (.error () : Except Unit (List CEntry))).2
        (.ok [esEntry] : Except Unit (List CEntry)) =
      ((get_available_countries freshState (.error () : Except Unit (List CEntry))).1,
        (get_available_countries freshState (.error () : Except Unit (List CEntry))).2)) :=
  ⟨rfl, rfl,
    (get_available_countries_spec freshState (.error ()) (.ok [esEntry])).1 rfl rfl () rfl,
    (get_available_countries_spec freshState (.error ()) (.ok [esEntry])).2.2.1,
    (get_available_countries_spec freshState (.error ()) (.ok [esEntry])).2.2.2⟩

/-! ### src/main.py: holiday enrichment and CSV aggregation -/

/-- A holiday record as consumed by main.py: a JSON object whose keys may be
absent (none).  The Python key named global is rendered here as globalDay
(global is reserved in several tools); no claim depends on that spelling. -/
structure Holiday where
  date : Option Str
  localName : Option Str
  name : Option Str
  countryCode : Option Str
  fixed : Option Bool
  globalDay : Option Bool
  counties : Option (List Str)
  types : Option (List Str)
  countryName : Option Str
  country_name : Option Str
deriving DecidableEq

/-- The enrichment step of main.py step 3:
h.setdefault of countryName with the matched source name: the key is set
only when absent, an existing value (even an empty one) is never replaced,
and no other field is touched. -/
def enrichCountryName (h : Holiday) (src : Str) : Holiday :=
  match h.countryName with
  | none => { h with countryName := some src }
  | some _ => h

/-- Claim C8: enrichment sets countryName to the matched source name exactly
when the record lacks one, never overwrites an existing (in particular any
nonempty) value, and leaves every other field unchanged. -/
theorem enrich_spec (h : Holiday) (src : Str) :
    (h.countryName = none → enrichCountryName h src = { h with countryName := some src }) ∧
    (∀ v, h.countryName = some v → enrichCountryName h src = h) ∧
    ((enrichCountryName h src).date = h.date ∧
     (enrichCountryName h src).localName = h.localName ∧
     (enrichCountryName h src).name = h.name ∧
     (enrichCountryName h src).countryCode = h.countryCode ∧
     (enrichCountryName h src).fixed = h.fixed ∧
     (enrichCountryName h src).globalDay = h.globalDay ∧
     (enrichCountryName h src).counties = h.counties ∧
     (enrichCountryName h src).types = h.types ∧
     (enrichCountryName h src).country_name = h.country_name) := by
  cases hc : h.countryName with
  | none =>
    refine ⟨fun _ => ?_, fun v hv => Option.noConfusion hv, ?_⟩
    · simp [enrichCountryName, hc]
    · simp [enrichCountryName, hc]
  | some v0 =>
    refine ⟨fun hn => Option.noConfusion hn, fun v hv => ?_, ?_⟩
    · simp [enrichCountryName, hc]
    · simp [enrichCountryName, hc]

def wHolidayBare : Holiday :=
  ⟨some ("2025-01-01".toList), none, some ("New Year".toList), some ("JP".toList),
    some true, some true, none, some [("Public".toList)], none, none⟩

def wHolidayNamed : Holiday :=
  { wHolidayBare with countryName := some ("Japan".toList) }

theorem enrich_spec_witness :
    wHolidayBare.countryName = none ∧
    enrichCountryName wHolidayBare ("Nippon".toList) =
      { wHolidayBare with countryName := some ("Nippon".toList) } ∧
    wHolidayNamed.countryName = some ("Japan".toList) ∧
    enrichCountryName wHolidayNamed ("Nippon".toList) = wHolidayNamed :=
  ⟨rfl, (enrich_spec wHolidayBare ("Nippon".toList)).1 rfl, rfl,
    (enrich_spec wHolidayNamed ("Nippon".toList)).2.1 ("Japan".toList) rfl⟩

/-- Python x or y for strings: y when x is missing or empty, else x. -/
def pyOrStr (o : Option Str) (d : Str) : Str :=
  match o with
  | some s => if s = [] then d else s
  | none => d

/-- The rendering of a list-valued field in aggregate_to_csv: a missing or
empty list gives the empty string, a nonempty list is joined with
semicolons. -/
def joinList (o : Option (List Str)) : Str :=
  match o with
  | none => []
  | some [] => []
  | some (x :: xs) => List.intercalate (";".toList) (x :: xs)

/-- One CSV row written by aggregate_to_csv (fields in header order). -/
structure Row where
  country_code : Str
  country_name : Str
  date : Option Str
  local_name : Option Str
  name : Option Str
  fixed : Option Bool
  globalDay : Option Bool
  counties : Str
  types : Str
deriving DecidableEq

/-- The row written for holiday h under country code. -/
def rowOf (code : Str) (h : Holiday) : Row :=
  ⟨code,
    pyOrStr h.countryName (pyOrStr h.country_name []),
    h.date, h.localName, h.name, h.fixed, h.globalDay,
    joinList h.counties, joinList h.types⟩

/-- The sort key order of Python sorted over dict items: tuples are compared
on their first component (the country code); keys are unique so the second
component is never reached. -/
def keyLe (a b : Str × List Holiday) : Prop := strLt b.1 a.1 = false

instance : DecidableRel keyLe :=
  fun a b => inferInstanceAs (Decidable (strLt b.1 a.1 = false))

instance : IsTotal (Str × List Holiday) keyLe :=
  ⟨fun a b => by
    cases h : strLt b.1 a.1 with
    | false => exact Or.inl h
    | true => exact Or.inr (strLt_asymm h)⟩

instance : IsTrans (Str × List Holiday) keyLe :=
  ⟨fun a b c hab hbc => by
    cases h : strLt c.1 a.1 with
    | false => exact h
    | true =>
      exfalso
      rcases strLt_total a.1 b.1 with h1 | h1 | h1
      · have := strLt_trans h h1
        rw [hbc] at this
        exact Bool.false_ne_true this
      · rw [hab] at h1
        exact Bool.false_ne_true h1
      · rw [h1] at h
        rw [hbc] at h
        exact Bool.false_ne_true h⟩

/-- main.py aggregate_to_csv: the sequence of data rows, in the order they
are written: groups sorted by country code, each group preserving its
holiday order.  Python sorted is stable and the group keys are pairwise
distinct (dictionary keys), so insertion sort produces the same list. -/
def aggregate_to_csv (m : List (Str × List Holiday)) : List Row :=
  (List.insertionSort keyLe m).flatMap fun p => p.2.map (rowOf p.1)

theorem pairwise_map_const {α : Type} {R : Str → Str → Prop} (c : Str) (hc : R c c)
    (l : List α) : List.Pairwise R (l.map fun _ => c) := by
  induction l with
  | nil => exact List.Pairwise.nil
  | cons x xs ih =>
    rw [List.map_cons]
    refine List.Pairwise.cons ?_ ih
    intro b hb
    rcases List.mem_map.mp hb with ⟨_, _, hbe⟩
    rw [← hbe]
    exact hc

theorem mem_agg_codes {s : List (Str × List Holiday)} {b : Str}
    (hb : b ∈ (s.flatMap fun p => p.2.map (rowOf p.1)).map Row.country_code) :
    ∃ q ∈ s, b = q.1 := by
  rcases List.mem_map.mp hb with ⟨r, hr, hrb⟩
  rcases List.mem_flatMap.mp hr with ⟨q, hq, hrq⟩
  rcases List.mem_map.mp hrq with ⟨h, _, hrh⟩
  refine ⟨q, hq, ?_⟩
  rw [← hrb, ← hrh]
  rfl

theorem agg_pairwise (s : List (Str × List Holiday)) (hs : List.Pairwise keyLe s) :
    ((s.flatMap fun p => p.2.map (rowOf p.1)).map Row.country_code).Pairwise
      (fun a b => strLt b a = false) := by
  induction s with
  | nil => simp
  | cons p s' ih =>
    rcases List.pairwise_cons.mp hs with ⟨hp, hps'⟩
    rw [List.flatMap_cons, List.map_append, List.pairwise_append]
    refine ⟨?_, ih hps', ?_⟩
    · rw [List.map_map]
      have hcomp : (Row.country_code ∘ rowOf p.1) = fun _ : Holiday => p.1 := rfl
      rw [hcomp]
      exact pairwise_map_const p.1 (strLt_irrefl p.1) p.2
    · intro a ha b hb
      rcases List.mem_map.mp ha with ⟨r, hr, hra⟩
      rcases List.mem_map.mp hr with ⟨h, _, hrh⟩
      have ha1 : a = p.1 := by rw [← hra, ← hrh]; rfl
      rcases mem_agg_codes hb with ⟨q, hq, hbq⟩
      rw [ha1, hbq]
      exact hp q hq

theorem agg_filter (s : List (Str × List Holiday)) (hnd : (s.map Prod.fst).Nodup)
    (code : Str) (hs : List Holiday) (hmem : (code, hs) ∈ s) :
    ((s.flatMap fun p => p.2.map (rowOf p.1)).filter fun r => r.country_code == code) =
      hs.map (rowOf code) := by
  induction s with
  | nil => simp at hmem
  | cons p s' ih =>
    rw [List.map_cons, List.nodup_cons] at hnd
    rw [List.flatMap_cons, List.filter_append]
    rcases List.mem_cons.mp hmem with h | h
    · subst h
      show ((hs.map (rowOf code)).filter (fun r => r.country_code == code)) ++ _ =
        hs.map (rowOf code)
      have h1 : ((hs.map (rowOf code)).filter (fun r => r.country_code == code)) =
          hs.map (rowOf code) := by
        rw [List.filter_map]
        have hpred : ((fun r => r.country_code == code) ∘ rowOf code) = fun _ => true := by
          funext x
          simp [rowOf]
        rw [hpred, List.filter_true]
      have h2 : ((s'.flatMap fun q => q.2.map (rowOf q.1)).filter
          (fun r => r.country_code == code)) = [] := by
        rw [List.filter_eq_nil_iff]
        intro r hr
        rcases List.mem_flatMap.mp hr with ⟨q, hq, hrq⟩
        rcases List.mem_map.mp hrq with ⟨x, _, hrx⟩
        have hrc : r.country_code = q.1 := by rw [← hrx]; rfl
        rw [hrc]
        simp only [beq_iff_eq]
        intro hqc
        apply hnd.1
        have hmem2 : q.1 ∈ s'.map Prod.fst := List.mem_map_of_mem Prod.fst hq
        rw [hqc] at hmem2
        exact hmem2
      rw [h1, h2, List.append_nil]
    · have hcode_mem : code ∈ s'.map Prod.fst := by
        have := List.mem_map_of_mem Prod.fst h
        simpa using this
      have hk : p.1 ≠ code := by
        intro hke
        apply hnd.1
        rw [hke]
        exact hcode_mem
      have h1 : (p.2.map (rowOf p.1)).filter (fun r => r.country_code == code) = [] := by
        rw [List.filter_map]
        have hpred : ((fun r => r.country_code == code) ∘ rowOf p.1) = fun _ => false := by
          funext x
          simp only [Function.comp_apply]
          have hcc : (rowOf p.1 x).country_code = p.1 := rfl
          rw [hcc]
          exact beq_eq_false_iff_ne.mpr hk
        rw [hpred, List.filter_false, List.map_nil]
      rw [h1, List.nil_append]
      exact ih hnd.2 h

/-- Claim C7: the flat aggregation emits rows grouped by country code in
lexicographically sorted code order (the emitted code sequence is pairwise
nondecreasing), the rows carrying a given code of the mapping are exactly
that code's holidays in unchanged order, and list-valued fields render as
semicolon-joined strings with missing or empty lists rendering as the empty
string. -/
theorem aggregate_spec (m : List (Str × List Holiday)) (hnd : (m.map Prod.fst).Nodup) :
    ((aggregate_to_csv m).map Row.country_code).Pairwise (fun a b => strLt b a = false) ∧
    (∀ code hs, (code, hs) ∈ m →
      (aggregate_to_csv m).filter (fun r => r.country_code == code) = hs.map (rowOf code)) ∧
    (∀ code h,
      ((h.counties = none ∨ h.counties = some []) → (rowOf code h).counties = []) ∧
      (∀ l, h.counties = some l → l ≠ [] →
        (rowOf code h).counties = List.intercalate (";".toList) l) ∧
      ((h.types = none ∨ h.types = some []) → (rowOf code h).types = []) ∧
      (∀ l, h.types = some l → l ≠ [] →
        (rowOf code h).types = List.intercalate (";".toList) l)) := by
  refine ⟨?_, ?_, ?_⟩
  · exact agg_pairwise _ (List.sorted_insertionSort keyLe m)
  · intro code hs hmem
    apply agg_filter
    · exact ((List.perm_insertionSort keyLe m).map Prod.fst).nodup_iff.mpr hnd
    · exact ((List.perm_insertionSort keyLe m).mem_iff).mpr hmem
  · intro code h
    refine ⟨?_, ?_, ?_, ?_⟩
    · rintro (hc | hc) <;> simp [rowOf, joinList, hc]
    · intro l hl hlne
      cases l with
      | nil => exact absurd rfl hlne
      | cons x xs => simp [rowOf, joinList, hl]
    · rintro (hc | hc) <;> simp [rowOf, joinList, hc]
    · intro l hl hlne
      cases l with
      | nil => exact absurd rfl hlne
      | cons x xs => simp [rowOf, joinList, hl]

def jpH1 : Holiday :=
  ⟨some ("2025-01-01".toList), some ("ganjitsu".toList), some ("New Year".toList),
    some jpCode, some true, some true, none, some [("Public".toList)], none, none⟩

def jpH2 : Holiday :=
  ⟨some ("2025-02-11".toList), none, some ("Foundation Day".toList),
    some jpCode, some true, some false, some [("Kanto".toList), ("Kansai".toList)],
    some [("Public".toList)], some ("Japan".toList), none⟩

def gbH1 : Holiday :=
  ⟨some ("2025-12-25".toList), none, some ("Christmas".toList),
    some gbCode, some true, some true, none, none, none, some ("United Kingdom".toList)⟩

def mW : List (Str × List Holiday) := [(jpCode, [jpH1, jpH2]), (gbCode, [gbH1])]

theorem aggregate_spec_witness :
    (mW.map Prod.fst).Nodup ∧
    ((aggregate_to_csv mW).map Row.country_code).Pairwise (fun a b => strLt b a = false) ∧
    (aggregate_to_csv mW).filter (fun r => r.country_code == jpCode) =
      [jpH1, jpH2].map (rowOf jpCode) ∧
    (rowOf jpCode jpH1).counties = [] ∧
    (rowOf jpCode jpH2).counties =
      List.intercalate (";".toList) [("Kanto".toList), ("Kansai".toList)] :=
  ⟨by decide, (aggregate_spec mW (by decide)).1,
    (aggregate_spec mW (by decide)).2.1 jpCode [jpH1, jpH2] (by decide),
    ((aggregate_spec mW (by decide)).2.2 jpCode jpH1).1 (Or.inl rfl),
    ((aggregate_spec mW (by decide)).2.2 jpCode jpH2).2.1 _ rfl (by decide)⟩

/-! ### src/azure/export_table.py: export_csv_to_table -/

/-- Python str(idx) for the numeric row-key suffix: decimal digits,
computed with structural fuel (n divisions by ten always suffice). -/
def natStrAux : Nat → Nat → Str
  | 0, _ => []
  | _ + 1, 0 => []
  | fuel + 1, n + 1 =>
    natStrAux fuel ((n + 1) / 10) ++ [Nat.digitChar ((n + 1) % 10)]

def natStr (n : Nat) : Str := if n = 0 then ['0'] else natStrAux n n

theorem natStrAux_eq_digits :
    ∀ (fuel n : Nat), n ≤ fuel →
      natStrAux fuel n = ((Nat.digits 10 n).map Nat.digitChar).reverse := by
  intro fuel
  induction fuel with
  | zero =>
    intro n hn
    interval_cases n
    rw [Nat.digits_zero]
    rfl
  | succ f ih =>
    intro n hn
    cases n with
    | zero =>
      rw [Nat.digits_zero]
      rfl
    | succ m =>
      have hdiv : (m + 1) / 10 ≤ f := by
        have h1 : (m + 1) / 10 < m + 1 := Nat.div_lt_self (Nat.succ_pos m) (by norm_num)
        omega
      rw [show natStrAux (f + 1) (m + 1) =
        natStrAux f ((m + 1) / 10) ++ [Nat.digitChar ((m + 1) % 10)] from rfl]
      rw [ih _ hdiv]
      rw [Nat.digits_def' (by norm_num : (1 : ℕ) < 10) (Nat.succ_pos m)]
      rw [List.map_cons, List.reverse_cons]

theorem digitChar_inj_lt :
    ∀ d1 < 10, ∀ d2 < 10, Nat.digitChar d1 = Nat.digitChar d2 → d1 = d2 := by
  decide

theorem map_digitChar_inj :
    ∀ (l1 l2 : List Nat), (∀ d ∈ l1, d < 10) → (∀ d ∈ l2, d < 10) →
      l1.map Nat.digitChar = l2.map Nat.digitChar → l1 = l2 := by
  intro l1
  induction l1 with
  | nil =>
    intro l2 _ _ h
    cases l2 with
    | nil => rfl
    | cons y ys => simp at h
  | cons x xs ih =>
    intro l2 h1 h2 h
    cases l2 with
    | nil => simp at h
    | cons y ys =>
      simp only [List.map_cons, List.cons.injEq] at h
      have hx := h1 x (List.mem_cons_self _ _)
      have hy := h2 y (List.mem_cons_self _ _)
      rw [digitChar_inj_lt x hx y hy h.1,
        ih ys (fun d hd => h1 d (List.mem_cons_of_mem _ hd))
          (fun d hd => h2 d (List.mem_cons_of_mem _ hd)) h.2]

theorem digits_map_ne_zero_str {b : Nat} (hb : b ≠ 0) :
    ((Nat.digits 10 b).map Nat.digitChar).reverse ≠ ['0'] := by
  intro h
  have h2 : (Nat.digits 10 b).map Nat.digitChar = ['0'] := by
    have := congrArg List.reverse h
    rw [List.reverse_reverse] at this
    exact this
  have h3 : Nat.digits 10 b = [0] := by
    apply map_digitChar_inj (Nat.digits 10 b) [0]
    · intro d hd
      exact Nat.digits_lt_base (by norm_num) hd
    · intro d hd
      simp at hd
      omega
    · rw [h2]
      rfl
  have h4 := Nat.ofDigits_digits 10 b
  rw [h3] at h4
  simp [Nat.ofDigits] at h4
  exact hb h4.symm

theorem natStr_inj : ∀ {a b : Nat}, natStr a = natStr b → a = b := by
  intro a b h
  unfold natStr at h
  by_cases ha : a = 0 <;> by_cases hb : b = 0
  · rw [ha, hb]
  · exfalso
    rw [if_pos ha, if_neg hb, natStrAux_eq_digits b b le_rfl] at h
    exact digits_map_ne_zero_str hb h.symm
  · exfalso
    rw [if_neg ha, if_pos hb, natStrAux_eq_digits a a le_rfl] at h
    exact digits_map_ne_zero_str ha h
  · rw [if_neg ha, if_neg hb, natStrAux_eq_digits a a le_rfl,
      natStrAux_eq_digits b b le_rfl] at h
    have h2 := List.reverse_injective h
    have h3 := map_digitChar_inj _ _
      (fun d hd => Nat.digits_lt_base (by norm_num) hd)
      (fun d hd => Nat.digits_lt_base (by norm_num) hd) h2
    have h4 := Nat.ofDigits_digits 10 a
    rw [h3, Nat.ofDigits_digits 10 b] at h4
    exact h4.symm

theorem natStr_ne_nil (n : Nat) : natStr n ≠ [] := by
  unfold natStr
  by_cases h : n = 0
  · simp [h]
  · rw [if_neg h, natStrAux_eq_digits n n le_rfl]
    intro hnil
    rw [List.reverse_eq_nil_iff, List.map_eq_nil_iff] at hnil
    exact (Nat.digits_ne_nil_iff_ne_zero.mpr h) hnil

/-- The idx-th row-key candidate for a base key: idx 1 is the base itself,
idx at least 2 appends an underscore and the decimal index, exactly the
strings tried by the while loop of export_csv_to_table. -/
def rkCand (base : Str) (k : Nat) : Str :=
  if k ≤ 1 then base else base ++ '_' :: natStr k

theorem rkCand_inj (base : Str) {j k : Nat} (hj : 1 ≤ j) (hk : 1 ≤ k)
    (h : rkCand base j = rkCand base k) : j = k := by
  unfold rkCand at h
  by_cases hj1 : j ≤ 1 <;> by_cases hk1 : k ≤ 1
  · omega
  · exfalso
    rw [if_pos hj1, if_neg hk1] at h
    have := congrArg List.length h
    rw [List.length_append, List.length_cons] at this
    omega
  · exfalso
    rw [if_neg hj1, if_pos hk1] at h
    have := congrArg List.length h
    rw [List.length_append, List.length_cons] at this
    omega
  · rw [if_neg hj1, if_neg hk1] at h
    have h2 := List.append_cancel_left h
    simp only [List.cons.injEq, true_and] at h2
    exact natStr_inj h2

/-- The collision-resolution while loop of export_csv_to_table: starting at
candidate index k, walk forward until the (partition, candidate) pair is not
in seen; fuel bounds the walk (seen.length + 1 suffices by pigeonhole). -/
def pickAux (seen : List (Str × Str)) (country base : Str) : Nat → Nat → Str
  | 0, k => rkCand base k
  | fuel + 1, k =>
    if (country, rkCand base k) ∈ seen then pickAux seen country base fuel (k + 1)
    else rkCand base k

def pickRk (seen : List (Str × Str)) (country base : Str) : Str :=
  pickAux seen country base (seen.length + 1) 1

theorem pickAux_spec (seen : List (Str × Str)) (country base : Str) :
    ∀ (fuel k : Nat),
      (∃ t, t ≤ fuel ∧ (country, rkCand base (k + t)) ∉ seen) →
      ∃ t, t ≤ fuel ∧ pickAux seen country base fuel k = rkCand base (k + t) ∧
        (country, rkCand base (k + t)) ∉ seen ∧
        ∀ j, k ≤ j → j < k + t → (country, rkCand base j) ∈ seen := by
  intro fuel
  induction fuel with
  | zero =>
    rintro k ⟨t, ht, hfree⟩
    have ht0 : t = 0 := by omega
    subst ht0
    exact ⟨0, le_rfl, rfl, hfree, fun j h1 h2 => by omega⟩
  | succ f ih =>
    rintro k ⟨t, ht, hfree⟩
    by_cases hmem : (country, rkCand base k) ∈ seen
    · have htne : t ≠ 0 := by
        intro h0
        rw [h0, Nat.add_zero] at hfree
        exact hfree hmem
      obtain ⟨t', rfl⟩ : ∃ t', t = t' + 1 := ⟨t - 1, by omega⟩
      have hfree' : (country, rkCand base (k + 1 + t')) ∉ seen := by
        have : k + 1 + t' = k + (t' + 1) := by omega
        rw [this]
        exact hfree
      obtain ⟨t'', ht'', heq, hfree'', hmin⟩ := ih (k + 1) ⟨t', by omega, hfree'⟩
      refine ⟨t'' + 1, by omega, ?_, ?_, ?_⟩
      · rw [show pickAux seen country base (f + 1) k =
          pickAux seen country base f (k + 1) from by simp [pickAux, hmem]]
        rw [heq]
        congr 1
        omega
      · have : k + (t'' + 1) = k + 1 + t'' := by omega
        rw [this]
        exact hfree''
      · intro j hj1 hj2
        rcases Nat.eq_or_lt_of_le hj1 with h | h
        · rw [← h]
          exact hmem
        · exact hmin j h (by omega)
    · refine ⟨0, by omega, ?_, by rw [Nat.add_zero]; exact hmem, fun j h1 h2 => by omega⟩
      simp [pickAux, hmem]

theorem pick_exists (seen : List (Str × Str)) (country base : Str) :
    ∃ t, t ≤ seen.length ∧ (country, rkCand base (1 + t)) ∉ seen := by
  by_contra hcon
  push_neg at hcon
  have hsub : ∀ x ∈ (List.range (seen.length + 1)).map
      (fun t => (country, rkCand base (1 + t))), x ∈ seen := by
    intro x hx
    rcases List.mem_map.mp hx with ⟨t, htr, hxe⟩
    rw [List.mem_range] at htr
    rw [← hxe]
    exact hcon t (by omega)
  have hnd : ((List.range (seen.length + 1)).map
      (fun t => (country, rkCand base (1 + t)))).Nodup := by
    apply List.Nodup.map_on ?_ (List.nodup_range _)
    intro t1 _ t2 _ he
    simp only [Prod.mk.injEq, true_and] at he
    have := rkCand_inj base (by omega : 1 ≤ 1 + t1) (by omega : 1 ≤ 1 + t2) he
    omega
  have hcard1 : ((List.range (seen.length + 1)).map
      (fun t => (country, rkCand base (1 + t)))).toFinset.card = seen.length + 1 := by
    rw [List.toFinset_card_of_nodup hnd, List.length_map, List.length_range]
  have hcard2 : ((List.range (seen.length + 1)).map
      (fun t => (country, rkCand base (1 + t)))).toFinset.card ≤ seen.length := by
    calc ((List.range (seen.length + 1)).map
        (fun t => (country, rkCand base (1 + t)))).toFinset.card
        ≤ seen.toFinset.card := by
          apply Finset.card_le_card
          intro x hx
          rw [List.mem_toFinset] at hx ⊢
          exact hsub x hx
      _ ≤ seen.length := List.toFinset_card_le seen
  omega

theorem pickRk_spec (seen : List (Str × Str)) (country base : Str) :
    ∃ k, 1 ≤ k ∧ pickRk seen country base = rkCand base k ∧
      (country, rkCand base k) ∉ seen ∧
      ∀ j, 1 ≤ j → j < k → (country, rkCand base j) ∈ seen := by
  obtain ⟨t, ht, hfree⟩ := pick_exists seen country base
  obtain ⟨t', ht', heq, hfree', hmin⟩ :=
    pickAux_spec seen country base (seen.length + 1) 1 ⟨t, by omega, hfree⟩
  exact ⟨1 + t', by omega, heq, hfree', fun j h1 h2 => hmin j h1 h2⟩

/-- Python str.strip: drop whitespace on both ends. -/
def pyStrip (s : Str) : Str :=
  ((s.dropWhile Char.isWhitespace).reverse.dropWhile Char.isWhitespace).reverse

/-- export_table _slug: keep alphanumeric characters lowercased, truncate to
40, and fall back to the single letter x when nothing remains. -/
def slug (val : Str) : Str :=
  let s := ((val.filter Char.isAlphanum).map Char.toLower).take 40
  if s = [] then "x".toList else s

/-- One CSV row as read back by csv.DictReader (all fields strings). -/
structure CsvRow where
  country_code : Str
  country_name : Str
  date : Str
  local_name : Str
  name : Str
  fixed : Str
  globalDay : Str
  counties : Str
  types : Str
deriving DecidableEq

/-- The base row key of a CSV row: stripped date, underscore, slug of the
stripped holiday name. -/
def rkBase (r : CsvRow) : Str := pyStrip r.date ++ '_' :: slug (pyStrip r.name)

/-- Decimal digit parse of a nonempty all-digit string. -/
def digitsToNat? (s : Str) : Option Nat :=
  if s = [] then none
  else if s.all (fun c => c.isDigit) then
    some (s.foldl (fun acc c => acc * 10 + (c.toNat - 48)) 0)
  else none

/-- Python int of a string, total: none where int() would raise.  Modelled as
plain decimal with an optional leading minus; the claims do not involve the
Year column. -/
def strToInt? (s : Str) : Option Int :=
  match s with
  | '-' :: rest => (digitsToNat? rest).map fun n => -(n : Int)
  | _ => (digitsToNat? s).map fun n => (n : Int)

def sTrue : Str := "true".toList

/-- An Azure Table entity as assembled by export_csv_to_table; the Python
keys Global and Year are rendered GlobalDay and Year. -/
structure Entity where
  PartitionKey : Str
  RowKey : Str
  CountryName : Str
  Date : Str
  LocalName : Str
  Name : Str
  Fixed : Bool
  GlobalDay : Bool
  Counties : Str
  Types : Str
  Year : Option Int
deriving DecidableEq

def mkEntity (r : CsvRow) (country rk : Str) : Entity :=
  ⟨country, rk, r.country_name, pyStrip r.date, r.local_name, pyStrip r.name,
    lower r.fixed == sTrue, lower r.globalDay == sTrue, r.counties, r.types,
    strToInt? (((pyStrip r.date).splitOn '-').headD [])⟩

def keyOf (e : Entity) : Str × Str := (e.PartitionKey, e.RowKey)

/-- The row loop of export_csv_to_table: for each row, strip the key fields,
pick the first free row-key candidate against the seen set, record the new
(partition, row key) pair in seen, and emit the entity. -/
def buildEntities : List CsvRow → List (Str × Str) → List Entity
  | [], _ => []
  | r :: rs, seen =>
    let country := pyStrip r.country_code
    let rk := pickRk seen country (rkBase r)
    mkEntity r country rk :: buildEntities rs ((country, rk) :: seen)

/-- The defaultdict grouping of entities by PartitionKey: groups appear in
first-occurrence order, each group keeping its entities in order. -/
def insertGroup : List (Str × List Entity) → Entity → List (Str × List Entity)
  | [], e => [(e.PartitionKey, [e])]
  | (k, l) :: rest, e =>
    if k = e.PartitionKey then (k, l ++ [e]) :: rest
    else (k, l) :: insertGroup rest e

def groupByKey (es : List Entity) : List (Str × List Entity) :=
  es.foldl insertGroup []

/-- _batch_iter with size 100. -/
def chunksF : Nat → List Entity → List (List Entity)
  | 0, _ => []
  | _ + 1, [] => []
  | fuel + 1, x :: xs => (x :: xs).take 100 :: chunksF fuel ((x :: xs).drop 100)

def chunks (l : List Entity) : List (List Entity) := chunksF l.length l

/-- The per-partition batches submitted to submit_transaction, each tagged
with its partition key. -/
def batches (es : List Entity) : List (Str × List Entity) :=
  (groupByKey es).flatMap fun g => (chunks g.2).map fun b => (g.1, b)

theorem chunksF_spec :
    ∀ (fuel : Nat) (l : List Entity), ∀ b ∈ chunksF fuel l,
      b.length ≤ 100 ∧ ∀ e ∈ b, e ∈ l := by
  intro fuel
  induction fuel with
  | zero => intro l b hb; simp [chunksF] at hb
  | succ f ih =>
    intro l b hb
    cases l with
    | nil => simp [chunksF] at hb
    | cons x xs =>
      simp only [chunksF, List.mem_cons] at hb
      rcases hb with hb | hb
      · subst hb
        constructor
        · rw [List.length_take]
          omega
        · intro e he
          exact List.take_subset 100 (x :: xs) he
      · obtain ⟨hlen, hsub⟩ := ih ((x :: xs).drop 100) b hb
        exact ⟨hlen, fun e he => List.drop_subset 100 (x :: xs) (hsub e he)⟩

theorem insertGroup_keys (acc : List (Str × List Entity)) (e : Entity)
    (hacc : ∀ g ∈ acc, ∀ x ∈ g.2, x.PartitionKey = g.1) :
    ∀ g ∈ insertGroup acc e, ∀ x ∈ g.2, x.PartitionKey = g.1 := by
  induction acc with
  | nil =>
    intro g hg x hx
    simp only [insertGroup, List.mem_singleton] at hg
    subst hg
    simp only [List.mem_singleton] at hx
    subst hx
    rfl
  | cons p rest ih =>
    cases p with
    | mk k l =>
      intro g hg x hx
      simp only [insertGroup] at hg
      by_cases hke : k = e.PartitionKey
      · rw [if_pos hke] at hg
        rcases List.mem_cons.mp hg with h | h
        · subst h
          rcases List.mem_append.mp hx with h2 | h2
          · exact hacc (k, l) (List.mem_cons_self _ _) x h2
          · simp only [List.mem_singleton] at h2
            subst h2
            exact hke.symm
        · exact hacc g (List.mem_cons_of_mem _ h) x hx
      · rw [if_neg hke] at hg
        rcases List.mem_cons.mp hg with h | h
        · subst h
          exact hacc (k, l) (List.mem_cons_self _ _) x hx
        · exact ih (fun g' hg' => hacc g' (List.mem_cons_of_mem _ hg')) g h x hx

theorem groupByKey_aux (es : List Entity) :
    ∀ (acc : List (Str × List Entity)),
      (∀ g ∈ acc, ∀ x ∈ g.2, x.PartitionKey = g.1) →
      ∀ g ∈ es.foldl insertGroup acc, ∀ x ∈ g.2, x.PartitionKey = g.1 := by
  induction es with
  | nil => intro acc hacc; exact hacc
  | cons e es ih =>
    intro acc hacc
    rw [List.foldl_cons]
    exact ih (insertGroup acc e) (insertGroup_keys acc e hacc)

theorem groupByKey_spec (es : List Entity) :
    ∀ g ∈ groupByKey es, ∀ x ∈ g.2, x.PartitionKey = g.1 :=
  groupByKey_aux es [] (by intro g hg; simp at hg)

theorem buildEntities_fresh :
    ∀ (rows : List CsvRow) (seen : List (Str × Str)),
      (∀ key ∈ (buildEntities rows seen).map keyOf, key ∉ seen) ∧
      ((buildEntities rows seen).map keyOf).Nodup := by
  intro rows
  induction rows with
  | nil => intro seen; simp [buildEntities]
  | cons r rs ih =>
    intro seen
    obtain ⟨kk, hk1, hkeq, hkfree, _⟩ := pickRk_spec seen (pyStrip r.country_code) (rkBase r)
    have hkey0 : keyOf (mkEntity r (pyStrip r.country_code)
        (pickRk seen (pyStrip r.country_code) (rkBase r))) =
        (pyStrip r.country_code, pickRk seen (pyStrip r.country_code) (rkBase r)) := rfl
    obtain ⟨ihfresh, ihnd⟩ := ih ((pyStrip r.country_code,
      pickRk seen (pyStrip r.country_code) (rkBase r)) :: seen)
    constructor
    · intro key hkey
      simp only [buildEntities, List.map_cons, List.mem_cons] at hkey
      rcases hkey with h | h
      · rw [h, hkey0, hkeq]
        exact hkfree
      · intro hs
        exact ihfresh key h (List.mem_cons_of_mem _ hs)
    · simp only [buildEntities, List.map_cons]
      rw [List.nodup_cons]
      refine ⟨?_, ihnd⟩
      intro hmem
      have := ihfresh _ hmem
      rw [hkey0] at this
      exact this (List.mem_cons_self _ _)

theorem buildEntities_rowkeys :
    ∀ (rows : List CsvRow) (seen : List (Str × Str)) (i : Nat) (r : CsvRow) (e : Entity),
      rows[i]? = some r → (buildEntities rows seen)[i]? = some e →
      ∃ k, 1 ≤ k ∧ e.PartitionKey = pyStrip r.country_code ∧
        e.RowKey = rkCand (rkBase r) k ∧
        (∀ j, 1 ≤ j → j < k →
          (e.PartitionKey, rkCand (rkBase r) j) ∈ seen ∨
          (e.PartitionKey, rkCand (rkBase r) j) ∈
            ((buildEntities rows seen).take i).map keyOf) ∧
        keyOf e ∉ seen ∧
        keyOf e ∉ ((buildEntities rows seen).take i).map keyOf := by
  intro rows
  induction rows with
  | nil =>
    intro seen i r e hr
    simp at hr
  | cons r0 rs ih =>
    intro seen i r e hr he
    cases i with
    | zero =>
      rw [List.getElem?_cons_zero, Option.some.injEq] at hr
      subst hr
      have hbuild0 : buildEntities (r0 :: rs) seen =
          mkEntity r0 (pyStrip r0.country_code)
            (pickRk seen (pyStrip r0.country_code) (rkBase r0)) ::
          buildEntities rs ((pyStrip r0.country_code,
            pickRk seen (pyStrip r0.country_code) (rkBase r0)) :: seen) := rfl
      rw [hbuild0, List.getElem?_cons_zero, Option.some.injEq] at he
      obtain ⟨kk, hk1, hkeq, hkfree, hkmin⟩ :=
        pickRk_spec seen (pyStrip r0.country_code) (rkBase r0)
      refine ⟨kk, hk1, ?_, ?_, ?_, ?_, ?_⟩
      · rw [← he]
        rfl
      · rw [← he]
        show pickRk seen (pyStrip r0.country_code) (rkBase r0) = rkCand (rkBase r0) kk
        exact hkeq
      · intro j hj1 hj2
        exact Or.inl (by rw [← he]; exact hkmin j hj1 hj2)
      · rw [← he]
        show (pyStrip r0.country_code, pickRk seen (pyStrip r0.country_code) (rkBase r0)) ∉ seen
        rw [hkeq]
        exact hkfree
      · simp
    | succ i =>
      rw [List.getElem?_cons_succ] at hr
      have hbuild : buildEntities (r0 :: rs) seen =
          mkEntity r0 (pyStrip r0.country_code)
            (pickRk seen (pyStrip r0.country_code) (rkBase r0)) ::
          buildEntities rs ((pyStrip r0.country_code,
            pickRk seen (pyStrip r0.country_code) (rkBase r0)) :: seen) := rfl
      rw [hbuild, List.getElem?_cons_succ] at he
      obtain ⟨k, hk1, hpk, hrk, hmin, hfr1, hfr2⟩ :=
        ih ((pyStrip r0.country_code,
          pickRk seen (pyStrip r0.country_code) (rkBase r0)) :: seen) i r e hr he
      refine ⟨k, hk1, hpk, hrk, ?_, ?_, ?_⟩
      · intro j hj1 hj2
        rcases hmin j hj1 hj2 with h | h
        · rcases List.mem_cons.mp h with h2 | h2
          · right
            rw [hbuild, List.take_succ_cons, List.map_cons]
            rw [h2]
            exact List.mem_cons_self _ _
          · exact Or.inl h2
        · right
          rw [hbuild, List.take_succ_cons, List.map_cons]
          exact List.mem_cons_of_mem _ h
      · intro hs
        exact hfr1 (List.mem_cons_of_mem _ hs)
      · rw [hbuild, List.take_succ_cons, List.map_cons]
        intro hmem
        rcases List.mem_cons.mp hmem with h | h
        · exact hfr1 (h ▸ List.mem_cons_self _ _)
        · exact hfr2 h

/-- Claim C9: in the export sink, every emitted (partition, row-key) pair of
a run is distinct, so no earlier row is overwritten; each row receives the
first free candidate key, the base key date underscore slug when free,
otherwise the first numeric suffix _2, _3, ... whose pair is not already
taken by an earlier row; and every submitted batch holds at most 100
entities, all of a single partition key. -/
theorem export_table_spec (rows : List CsvRow) :
    ((buildEntities rows []).map keyOf).Nodup ∧
    (∀ (i : Nat) (r : CsvRow) (e : Entity),
      rows[i]? = some r → (buildEntities rows [])[i]? = some e →
      ∃ k, 1 ≤ k ∧ e.PartitionKey = pyStrip r.country_code ∧
        e.RowKey = rkCand (rkBase r) k ∧
        (∀ j, 1 ≤ j → j < k →
          (e.PartitionKey, rkCand (rkBase r) j) ∈
            ((buildEntities rows []).take i).map keyOf) ∧
        keyOf e ∉ ((buildEntities rows []).take i).map keyOf) ∧
    (∀ (p : Str) (b : List Entity), (p, b) ∈ batches (buildEntities rows []) →
      b.length ≤ 100 ∧ ∀ e ∈ b, e.PartitionKey = p) := by
  refine ⟨(buildEntities_fresh rows []).2, ?_, ?_⟩
  · intro i r e hr he
    obtain ⟨k, hk1, hpk, hrk, hmin, _, hfr2⟩ := buildEntities_rowkeys rows [] i r e hr he
    refine ⟨k, hk1, hpk, hrk, ?_, hfr2⟩
    intro j hj1 hj2
    rcases hmin j hj1 hj2 with h | h
    · simp at h
    · exact h
  · intro p b hpb
    rcases List.mem_flatMap.mp hpb with ⟨g, hg, hpbg⟩
    rcases List.mem_map.mp hpbg with ⟨b', hb', hbe⟩
    cases hbe
    obtain ⟨hlen, hsub⟩ := chunksF_spec g.2.length g.2 b hb'
    refine ⟨hlen, fun e he => ?_⟩
    exact groupByKey_spec _ g hg e (hsub e he)

def rowNY1 : CsvRow :=
  ⟨"JP".toList, "Japan".toList, "2025-01-01".toList, [],
    "New Year".toList, "True".toList, "True".toList, [], []⟩

def rowNY2 : CsvRow :=
  ⟨"JP".toList, "Japan".toList, "2025-01-01".toList, [],
    "New Year".toList, "True".toList, "False".toList, [], []⟩

def rowsW : List CsvRow := [rowNY1, rowNY2]

/-- The second entity built from rowsW (same date and name as the first row,
so its row key carries the _2 suffix). -/
def eW1 : Entity :=
  match (buildEntities rowsW [])[1]? with
  | some e => e
  | none => mkEntity rowNY2 [] []

/-- The single batch submitted for rowsW. -/
def bW : Str × List Entity :=
  match batches (buildEntities rowsW []) with
  | b :: _ => b
  | [] => ([], [])

theorem export_table_spec_witness :
    ((buildEntities rowsW []).map keyOf).Nodup ∧
    (∃ k, 1 ≤ k ∧ eW1.PartitionKey = pyStrip rowNY2.country_code ∧
      eW1.RowKey = rkCand (rkBase rowNY2) k ∧
      (∀ j, 1 ≤ j → j < k →
        (eW1.PartitionKey, rkCand (rkBase rowNY2) j) ∈
          ((buildEntities rowsW []).take 1).map keyOf) ∧
      keyOf eW1 ∉ ((buildEntities rowsW []).take 1).map keyOf) ∧
    (bW.2.length ≤ 100 ∧ ∀ e ∈ bW.2, e.PartitionKey = bW.1) :=
  ⟨(export_table_spec rowsW).1,
   (export_table_spec rowsW).2.1 1 rowNY2 eW1 (by decide) (by decide),
   (export_table_spec rowsW).2.2 bW.1 bW.2 (by decide)⟩

end Vacation
